import Mathlib

/-!
Verification development for the EnriLSP protocol bridge.

The definitions below are a shallow embedding, translated from the
TypeScript sources:
  - `src/file-edits.ts` (WorkspaceEditApplier)
  - `src/lsp/client.ts` (LspClient: router, correlation engine,
    process supervisor, capability gate, frame codec)
  - the MCP entry point (rename tool handler)

JS strings are modelled as `List Char` (UTF-16 code units), byte buffers
as `List Nat`, JS numbers in index positions as `Nat` / `Int` where the
source can produce negative values.  JS `Array.prototype.sort` with a
comparator derived from a total preorder is modelled by a stable
insertion sort (`sortBy` below); ES2019 guarantees sort stability.
-/

/-! ## Stable sort infrastructure

JS `Array.prototype.sort(cmp)` with a comparator `cmp` induced by a total
preorder `le` (`cmp a b ≤ 0 ↔ le a b`) produces the stable `le`-sorted
permutation.  `sortBy` is a stable insertion sort: an element `x` is
placed after exactly those earlier elements that are strictly before it.
-/

def insertSorted {α : Type} (le : α → α → Bool) (x : α) : List α → List α
  | [] => [x]
  | y :: ys => if le y x && !(le x y) then y :: insertSorted le x ys else x :: y :: ys

def sortBy {α : Type} (le : α → α → Bool) : List α → List α
  | [] => []
  | x :: xs => insertSorted le x (sortBy le xs)

/-! ## Workspace Edit Applier (`src/file-edits.ts`)

`computeLineOffsets`, `offsetAt` and `applyTextEditsToContent` are
translated from `WorkspaceEditApplier`.  Content is a `List Char`;
line/character positions carry `Int` components because the source
clamps negative inputs with `Math.max(0, _)`.
-/

structure EditPosition where
  line : Int
  character : Int
deriving Repr, DecidableEq

structure EditRange where
  start : EditPosition
  endPos : EditPosition
deriving Repr, DecidableEq

structure FileTextEdit where
  range : EditRange
  newText : List Char
deriving Repr, DecidableEq

def computeLineOffsetsAux : List Char → Nat → List Nat
  | [], _ => []
  | c :: rest, i =>
    if c = '\n' then (i + 1) :: computeLineOffsetsAux rest (i + 1)
    else computeLineOffsetsAux rest (i + 1)

/-- Translation of `computeLineOffsets`: offset 0 plus one offset just past
every newline character. -/
def computeLineOffsets (text : List Char) : List Nat :=
  0 :: computeLineOffsetsAux text 0

/-- Translation of `offsetAt`: clamp the line and character to be
non-negative, send past-the-end lines to `text.length`, and clamp the
resulting offset to at most `text.length`. -/
def offsetAt (lineOffsets : List Nat) (pos : EditPosition) (text : List Char) : Nat :=
  let line : Nat := pos.line.toNat
  let character : Nat := pos.character.toNat
  if lineOffsets.length ≤ line then text.length
  else min text.length (lineOffsets.getD line 0 + character)

structure NormalizedEdit where
  start : Nat
  endPos : Nat
  newText : List Char
deriving Repr, DecidableEq

/-- Comparator of `applyTextEditsToContent`'s sort: descending start
offset, then descending end offset (JS `b.start - a.start || b.end - a.end`). -/
def editBefore (a b : NormalizedEdit) : Bool :=
  b.start < a.start || (b.start == a.start && b.endPos ≤ a.endPos)

def normalizeEdits (content : List Char) (edits : List FileTextEdit) : List NormalizedEdit :=
  let lineOffsets := computeLineOffsets content
  sortBy editBefore
    (edits.map fun e =>
      { start := offsetAt lineOffsets e.range.start content
        endPos := offsetAt lineOffsets e.range.endPos content
        newText := e.newText })

/-- Translation of the splice loop of `applyTextEditsToContent`: walk the
sorted edits, fail on the explicit `start > end` check, otherwise splice
`out.slice(0, start) + newText + out.slice(end)`. -/
def spliceEdits : List Char → List NormalizedEdit → Except String (List Char)
  | out, [] => Except.ok out
  | out, e :: rest =>
    if e.endPos < e.start then
      Except.error ("Invalid edit: start(" ++ toString e.start ++ ") > end(" ++ toString e.endPos ++ ")")
    else
      spliceEdits (out.take e.start ++ e.newText ++ out.drop e.endPos) rest

/-- Translation of `applyTextEditsToContent`. -/
def applyTextEditsToContent (content : List Char) (edits : List FileTextEdit) : Except String (List Char) :=
  if edits.isEmpty then Except.ok content
  else spliceEdits content (normalizeEdits content edits)

/-! ## Request timeout budgets (`src/lsp/client.ts`)

The literal `timeoutMs` arguments passed to `sendRequest` at each call
site. -/

/-- Timeout passed to `sendRequest` for the `initialize` handshake request. -/
def initializeRequestTimeoutMs : Nat := 30000

/-- Timeout passed to `sendRequest` for `textDocument/documentSymbol`. -/
def documentSymbolRequestTimeoutMs : Nat := 30000

/-- Timeout passed to `sendRequest` for `textDocument/definition`. -/
def definitionRequestTimeoutMs : Nat := 30000

/-- Timeout passed to `sendRequest` for `textDocument/references`. -/
def referencesRequestTimeoutMs : Nat := 30000

/-- Timeout passed to `sendRequest` for `textDocument/rename`. -/
def renameRequestTimeoutMs : Nat := 60000

/-! ## Capability gate (`serverAdvertisedCapability`)

A negotiated capability set is a JSON object: a finite map from string
keys to JSON values.  For the gate only three cases of a value matter:
boolean, `null`, and anything else (object, number, string, array). -/

inductive CapValue where
  | boolean (b : Bool)
  | nullValue
  | otherValue
deriving Repr, DecidableEq

def capLookup (key : String) : List (String × CapValue) → Option CapValue
  | [] => none
  | (k, v) :: rest => if k = key then some v else capLookup key rest

/-- Translation of `serverAdvertisedCapability`: an entirely empty
capability set is optimistically treated as supporting everything;
otherwise a missing or `null` entry reads as `false`, a boolean entry is
taken literally, and any other value reads as `true`. -/
def serverAdvertisedCapability (caps : List (String × CapValue)) (key : String) : Bool :=
  if caps.isEmpty then true
  else
    match capLookup key caps with
    | none => false
    | some CapValue.nullValue => false
    | some (CapValue.boolean b) => b
    | some CapValue.otherValue => true

/-! ## Router (`orderServerConfigsBySpecificity`)

File paths and root directories are modelled as normalized absolute
paths: lists of path segments.  `relative(root, file)` yielding neither
`".."`-led nor absolute output is, on such paths, exactly the statement
that `root`'s segments lead `file`'s.  The specificity score of a
containing root adds the length of the normalized root path string
(`"/" + segments joined by "/"`, length 1 for the filesystem root). -/

structure EnriLspServerConfig where
  name : Option String
  extensions : List String
  command : List String
  rootDir : Option (List String)
deriving Repr, DecidableEq

/-- Whether `root` is an ancestor of (or equal to) `file`: the
`rel === "" || (!rel.startsWith("..") && !isAbsolute(rel))` test of the
source, on normalized absolute segment paths. -/
def rootContains : List String → List String → Bool
  | [], _ => true
  | _ :: _, [] => false
  | r :: rs, f :: fs => r == f && rootContains rs fs

/-- Length of the normalized path string for a segment list (`"/"` for the
empty list, else one separator plus the segment text per segment). -/
def pathStringLength : List String → Nat
  | [] => 1
  | segs => (segs.map fun s => 1 + s.length).sum

/-- Translation of the score assigned inside
`orderServerConfigsBySpecificity`: no `rootDir` scores 0, a containing
root scores `10000 + root.length`, any other root scores -1. -/
def specificityScore (filePath : List String) (server : EnriLspServerConfig) : Int :=
  match server.rootDir with
  | none => 0
  | some root =>
    if rootContains root filePath then 10000 + (pathStringLength root : Int) else -1

structure ScoredServer where
  server : EnriLspServerConfig
  index : Nat
  score : Int
deriving Repr, DecidableEq

/-- Comparator of the source's sort (`b.score - a.score || a.index - b.index`):
descending score, ascending original index. -/
def scoredBefore (a b : ScoredServer) : Bool :=
  b.score < a.score || (b.score == a.score && a.index ≤ b.index)

/-- Translation of `orderServerConfigsBySpecificity`. -/
def orderServerConfigsBySpecificity (filePath : List String)
    (servers : List EnriLspServerConfig) : List EnriLspServerConfig :=
  if servers.length ≤ 1 then servers
  else
    let scored := servers.enum.map fun p => ScoredServer.mk p.2 p.1 (specificityScore filePath p.2)
    (sortBy scoredBefore scored).map ScoredServer.server

/-! ## Symbol matching and the rename tool handler

`findSymbolsByName` walks the document symbols returned by a backend and
collects the ones whose name (and, when a kind hint is given, kind)
match.  The rename tool handler then rejects on zero matches, rejects on
more than one match listing every candidate, and only with exactly one
match issues a `textDocument/rename` request. -/

structure SymbolRange where
  start : EditPosition
  endPos : EditPosition
deriving Repr, DecidableEq

structure SymbolLocation where
  uri : String
  range : SymbolRange
deriving Repr, DecidableEq

inductive DocumentSymbolNode where
  | node (name : String) (kind : Nat) (range : SymbolRange)
      (selectionRange : SymbolRange) (children : List DocumentSymbolNode)
deriving Repr

structure SymbolInformation where
  name : String
  kind : Nat
  location : SymbolLocation
deriving Repr, DecidableEq

structure SymbolMatch where
  name : String
  kind : Nat
  position : EditPosition
deriving Repr, DecidableEq

def stringAssocLookup (key : String) : List (String × Nat) → Option Nat
  | [] => none
  | (k, v) :: rest => if k = key then some v else stringAssocLookup key rest

def symbolKindTable : List (String × Nat) :=
  [("file", 1), ("module", 2), ("namespace", 3), ("package", 4), ("class", 5),
   ("method", 6), ("property", 7), ("field", 8), ("constructor", 9), ("enum", 10),
   ("interface", 11), ("function", 12), ("variable", 13), ("constant", 14),
   ("string", 15), ("number", 16), ("boolean", 17), ("array", 18), ("object", 19),
   ("key", 20), ("null", 21), ("enummember", 22), ("enum-member", 22),
   ("struct", 23), ("event", 24), ("operator", 25), ("typeparameter", 26),
   ("type-parameter", 26)]

/-- Translation of `symbolKindFromString`: an unset or empty hint yields no
kind filter; otherwise the trimmed, lowercased hint is looked up. -/
def symbolKindFromString (kind : Option String) : Option Nat :=
  match kind with
  | none => none
  | some s => if s = "" then none else stringAssocLookup s.trim.toLower symbolKindTable

/-- Translation of the `pushMatch` closure of `findSymbolsByName`. -/
def pushMatch (symbolName : String) (desiredKind : Option Nat)
    (name : String) (kind : Nat) (position : EditPosition) : List SymbolMatch :=
  if name ≠ symbolName then []
  else
    match desiredKind with
    | some k => if kind ≠ k then [] else [⟨name, kind, position⟩]
    | none => [⟨name, kind, position⟩]

mutual

def walkDocumentSymbol (symbolName : String) (desiredKind : Option Nat) :
    DocumentSymbolNode → List SymbolMatch
  | .node name kind _ selectionRange children =>
    pushMatch symbolName desiredKind name kind selectionRange.start ++
      walkDocumentSymbolList symbolName desiredKind children

def walkDocumentSymbolList (symbolName : String) (desiredKind : Option Nat) :
    List DocumentSymbolNode → List SymbolMatch
  | [] => []
  | s :: rest =>
    walkDocumentSymbol symbolName desiredKind s ++
      walkDocumentSymbolList symbolName desiredKind rest

end

/-- Translation of the pure core of `findSymbolsByName`: walk every
returned document symbol (hierarchical nodes recursively, flat
`SymbolInformation` entries directly) collecting matches in order. -/
def findSymbolsByName (docs : List (Sum DocumentSymbolNode SymbolInformation))
    (symbolName : String) (desiredKind : Option Nat) : List SymbolMatch :=
  (docs.map fun d =>
    match d with
    | .inl ds => walkDocumentSymbol symbolName desiredKind ds
    | .inr si => pushMatch symbolName desiredKind si.name si.kind si.location.range.start).flatten

inductive RenameReply where
  | noSymbols
  | ambiguous (candidates : List SymbolMatch)
  | applied (chosen : SymbolMatch)
  | previewed (chosen : SymbolMatch)
deriving Repr, DecidableEq

/-- Translation of the decision structure of the rename tool handler
(`handleRenameSymbol`), from the point where the symbol matches are
known.  The second component counts `textDocument/rename` requests
issued to backends: zero matches and ambiguous matches answer without
issuing one; a unique match issues exactly one (also under `dry_run`,
which only skips applying the resulting edit). -/
def handleRenameSymbol (matchList : List SymbolMatch) (dryRun : Bool) : RenameReply × Nat :=
  match matchList with
  | [] => (RenameReply.noSymbols, 0)
  | [m] => if dryRun then (RenameReply.previewed m, 1) else (RenameReply.applied m, 1)
  | _ :: _ :: _ => (RenameReply.ambiguous matchList, 0)

/-! ## Correlation engine (`sendRequest` / `handleMessage`)

In the source the request-id counter `nextId` and the map
`pendingRequests` are fields of the one `LspClient` object, not of the
per-process `ServerState`: `sendRequest` allocates `this.nextId++` and
registers into `this.pendingRequests` whichever backend process the
request is written to.  `runSends` models a sequence of `sendRequest`
calls, each tagged with the index of the target backend instance (the
tag is exactly what the allocation never consults). -/

structure ClientCorrelationState where
  nextId : Nat
  pendingIds : List Nat
deriving Repr, DecidableEq

def initialCorrelationState : ClientCorrelationState :=
  { nextId := 1, pendingIds := [] }

/-- Translation of the allocation step of `sendRequest`: take the client's
`nextId`, bump it, register the pending entry under the id alone.  The
target instance index is taken (as `sendRequest` takes the target
process) and ignored by the allocation. -/
def sendRequestAlloc (targetInstance : Nat) (st : ClientCorrelationState) :
    Nat × ClientCorrelationState :=
  let _ := targetInstance
  (st.nextId, { nextId := st.nextId + 1, pendingIds := st.pendingIds ++ [st.nextId] })

/-- Run a sequence of `sendRequest` calls (given by their target instance
indices) and collect the allocated request ids in order. -/
def runSends (sends : List Nat) (st : ClientCorrelationState) :
    List Nat × ClientCorrelationState :=
  match sends with
  | [] => ([], st)
  | t :: rest =>
    let (id, st') := sendRequestAlloc t st
    let (ids, st'') := runSends rest st'
    (id :: ids, st'')

/-! Lifecycle of a pending entry.  A pending request is settled by a
matching response (resolve), an error response (reject), or its timeout
timer (reject); each of these first deletes the entry, and
resolve/reject clear the timer, so the timer is live exactly while the
entry is present.  A response whose id has no pending entry falls
through `handleMessage` without touching any state. -/

inductive RequestOutcome where
  | resolved
  | rejectedError
  | rejectedTimeout
deriving Repr, DecidableEq

inductive CorrelationEvent where
  | send
  | response (id : Nat) (isError : Bool)
  | timeoutFire (id : Nat)
deriving Repr, DecidableEq

structure CorrelationState where
  nextId : Nat
  pending : List Nat
  outcomes : List (Nat × RequestOutcome)
deriving Repr, DecidableEq

def initialCorrelation : CorrelationState :=
  { nextId := 1, pending := [], outcomes := [] }

/-- One event against the correlation state: `send` registers a fresh id;
a response settles the matching pending entry (error payload rejects,
otherwise resolves) and is a no-op for unknown ids; a timeout fires only
while the entry (and hence its timer) is live, settling it as a timeout
rejection. -/
def correlationStep (st : CorrelationState) : CorrelationEvent → CorrelationState
  | CorrelationEvent.send =>
    { st with nextId := st.nextId + 1, pending := st.pending ++ [st.nextId] }
  | CorrelationEvent.response id isError =>
    if id ∈ st.pending then
      { st with
        pending := st.pending.erase id,
        outcomes := st.outcomes ++
          [(id, if isError then RequestOutcome.rejectedError else RequestOutcome.resolved)] }
    else st
  | CorrelationEvent.timeoutFire id =>
    if id ∈ st.pending then
      { st with
        pending := st.pending.erase id,
        outcomes := st.outcomes ++ [(id, RequestOutcome.rejectedTimeout)] }
    else st

def runCorrelation (trace : List CorrelationEvent) : CorrelationState :=
  trace.foldl correlationStep initialCorrelation

/-! ## Process supervisor (`getServerForConfig`)

For one uniqueness key, `getServerForConfig` runs — after the awaited
workspace-root resolution — a synchronous block: check the `servers`
registry, check the `serversStarting` map, else call `startServer`
(which spawns the process and begins exactly one handshake before its
first suspension) and publish the start promise, all before awaiting.
JS run-to-completion makes that block atomic; `supervisorStep` models it
as one step.  `finishStart` models the start promise settling together
with the continuations it wakes: on success the instance is published
and the in-flight marker cleared, on failure the marker is cleared and
the error propagates to every awaiter. -/

inductive CallPhase where
  | pending
  | waiting
  | done
  | failed
deriving Repr, DecidableEq

structure SupervisorState where
  live : Bool
  starting : Bool
  spawns : Nat
  handshakes : Nat
  calls : List CallPhase
deriving Repr, DecidableEq

def initSupervisor (n : Nat) : SupervisorState :=
  { live := false, starting := false, spawns := 0, handshakes := 0,
    calls := List.replicate n CallPhase.pending }

inductive SupervisorEvent where
  | runAcquire (i : Nat)
  | finishStart (ok : Bool)
deriving Repr, DecidableEq

def supervisorStep (st : SupervisorState) : SupervisorEvent → Option SupervisorState
  | SupervisorEvent.runAcquire i =>
    match st.calls.get? i with
    | some CallPhase.pending =>
      if st.live then some { st with calls := st.calls.set i CallPhase.done }
      else if st.starting then some { st with calls := st.calls.set i CallPhase.waiting }
      else
        some { st with
          starting := true,
          spawns := st.spawns + 1,
          handshakes := st.handshakes + 1,
          calls := st.calls.set i CallPhase.waiting }
    | _ => none
  | SupervisorEvent.finishStart ok =>
    if st.starting then
      if ok then
        some { st with
          live := true, starting := false,
          calls := st.calls.map fun c => if c = CallPhase.waiting then CallPhase.done else c }
      else
        some { st with
          starting := false,
          calls := st.calls.map fun c => if c = CallPhase.waiting then CallPhase.failed else c }
    else none

def runSupervisor (trace : List SupervisorEvent) (st : SupervisorState) :
    Option SupervisorState :=
  match trace with
  | [] => some st
  | e :: rest =>
    match supervisorStep st e with
    | none => none
    | some st' => runSupervisor rest st'

/-! ## Frame codec (`sendMessage` / `drainServerBuffer`)

Wire bytes are `List Nat`.  `sendMessage` serializes the message and
writes `"Content-Length: " + N + "\r\n\r\n"` (ASCII) followed by the
N-byte UTF-8 body; the JSON (de)serialization at the boundary is the JS
builtin, so a message is represented here by its serialized body bytes.
`drainServerBuffer` repeatedly scans the accumulated buffer for the
`\r\n\r\n` separator, reads the declared length from the header text
(decoded as ASCII, which masks each byte to 7 bits) with the
case-insensitive search `Content-Length:` + whitespace + digits, skips
past the separator on a malformed header, waits when fewer than the
declared number of body bytes have arrived, and otherwise consumes one
frame and loops. -/

def crlfcrlf : List Nat := [13, 10, 13, 10]

/-- Byte string of `"Content-Length: "` as written by `sendMessage`. -/
def contentLengthHeaderBytes : List Nat :=
  [67, 111, 110, 116, 101, 110, 116, 45, 76, 101, 110, 103, 116, 104, 58, 32]

/-- Decimal digit bytes of `n`, most significant first (the `${N}`
interpolation of the header template), via an explicit fuel argument so
that the definition is structural. -/
def natToDecimalAux (fuel n : Nat) : List Nat :=
  match fuel with
  | 0 => []
  | fuel + 1 =>
    if n < 10 then [48 + n] else natToDecimalAux fuel (n / 10) ++ [48 + n % 10]

def natToDecimal (n : Nat) : List Nat :=
  natToDecimalAux (n + 1) n

/-- Translation of `sendMessage`'s framing: header, separator, body. -/
def encodeFrame (body : List Nat) : List Nat :=
  contentLengthHeaderBytes ++ natToDecimal body.length ++ crlfcrlf ++ body

/-- First index at which the 4-byte separator `\r\n\r\n` occurs
(`Buffer.indexOf`). -/
def findSep : List Nat → Option Nat
  | [] => none
  | x :: xs =>
    if (x :: xs).take 4 = crlfcrlf then some 0 else (findSep xs).map (· + 1)

/-- ASCII case folding of a (7-bit) byte, for the regex's `i` flag. -/
def lowerByte (b : Nat) : Nat := if 65 ≤ b ∧ b ≤ 90 then b + 32 else b

/-- Byte string of `"content-length:"`, the case-folded literal of the
header regex. -/
def contentLengthLit : List Nat :=
  [99, 111, 110, 116, 101, 110, 116, 45, 108, 101, 110, 103, 116, 104, 58]

def isWhitespaceByte (b : Nat) : Bool :=
  b == 32 || b == 9 || b == 10 || b == 11 || b == 12 || b == 13

def isDigitByte (b : Nat) : Bool := 48 ≤ b && b ≤ 57

def parseDecDigits (ds : List Nat) : Nat :=
  ds.foldl (fun acc b => acc * 10 + (b - 48)) 0

/-- Match of `/Content-Length:\s*(\d+)/i` anchored at the start of `l`:
the case-folded literal, greedy whitespace, then at least one digit. -/
def matchContentLengthAt (l : List Nat) : Option Nat :=
  if (l.take 15).map lowerByte = contentLengthLit then
    let ds := ((l.drop 15).dropWhile isWhitespaceByte).takeWhile isDigitByte
    if ds.isEmpty then none else some (parseDecDigits ds)
  else none

/-- Leftmost match of `/Content-Length:\s*(\d+)/i` over the header text. -/
def findContentLength : List Nat → Option Nat
  | [] => none
  | l@(_ :: xs) =>
    match matchContentLengthAt l with
    | some n => some n
    | none => findContentLength xs

/-- Translation of `drainServerBuffer`: the loop that extracts every
complete frame currently in the buffer and returns the decoded bodies in
order together with the remaining buffer bytes.  The loop consumes at
least 4 bytes per iteration, so `buffer.length + 1` units of fuel make
the fuel bound unreachable (`drainServerBufferAux_fuel` below). -/
def drainServerBufferAux (fuel : Nat) (buffer : List Nat) : List (List Nat) × List Nat :=
  match fuel with
  | 0 => ([], buffer)
  | fuel + 1 =>
    match findSep buffer with
    | none => ([], buffer)
    | some headerEnd =>
      match findContentLength ((buffer.take headerEnd).map (· % 128)) with
      | none => drainServerBufferAux fuel (buffer.drop (headerEnd + 4))
      | some length =>
        let bodyStart := headerEnd + 4
        if buffer.length < bodyStart + length then ([], buffer)
        else
          let body := (buffer.drop bodyStart).take length
          let out := drainServerBufferAux fuel (buffer.drop (bodyStart + length))
          (body :: out.1, out.2)

def drainServerBuffer (buffer : List Nat) : List (List Nat) × List Nat :=
  drainServerBufferAux (buffer.length + 1) buffer

/-- Chunked delivery: each `data` callback appends the chunk to the
instance buffer and drains; the decoded bodies accumulate in arrival
order. -/
def feedChunks (chunks : List (List Nat)) : List (List Nat) × List Nat :=
  chunks.foldl
    (fun acc c =>
      let r := drainServerBuffer (acc.2 ++ c)
      (acc.1 ++ r.1, r.2))
    ([], [])

/-! ## Proof-level invariants

Auxiliary predicates used by the lifecycle proofs below. -/

/-- Invariant of the correlation state: outcome ids are unique, settled
ids are no longer pending, all registered ids are below the counter, and
the pending list holds no duplicates. -/
def CorrelationInv (st : CorrelationState) : Prop :=
  (st.outcomes.map Prod.fst).Nodup
  ∧ (∀ id ∈ st.outcomes.map Prod.fst, id ∉ st.pending)
  ∧ (∀ id ∈ st.pending, id < st.nextId)
  ∧ (∀ id ∈ st.outcomes.map Prod.fst, id < st.nextId)
  ∧ st.pending.Nodup

/-- Invariant of the supervisor state on failure-free traces: one
handshake per spawn, at most one spawn, a spawn exactly when an instance
is live or starting (never both), and no call progressed without a
spawn. -/
def SupervisorInv (st : SupervisorState) : Prop :=
  st.handshakes = st.spawns
  ∧ st.spawns ≤ 1
  ∧ ((st.live = true ∨ st.starting = true) ↔ st.spawns = 1)
  ∧ (st.spawns = 0 → ∀ c ∈ st.calls, c = CallPhase.pending)
  ∧ ¬(st.live = true ∧ st.starting = true)

/-! ## Theorems

Everything from here on is a lemma or a claim theorem about the
definitions above. -/

theorem insertSorted_perm {α : Type} (le : α → α → Bool) (x : α) (l : List α) :
    (insertSorted le x l).Perm (x :: l) := by
  induction l with
  | nil => simp [insertSorted]
  | cons y ys ih =>
    simp only [insertSorted]
    by_cases h : (le y x && !(le x y)) = true
    · simp only [h, if_true]
      exact (List.Perm.cons y ih).trans (List.Perm.swap x y ys)
    · simp only [h]
      simp

theorem sortBy_perm {α : Type} (le : α → α → Bool) (l : List α) :
    (sortBy le l).Perm l := by
  induction l with
  | nil => simp [sortBy]
  | cons x xs ih =>
    exact (insertSorted_perm le x (sortBy le xs)).trans (ih.cons x)

theorem pairwise_insertSorted {α : Type} (le : α → α → Bool)
    (htrans : ∀ a b c, le a b = true → le b c = true → le a c = true)
    (htotal : ∀ a b, le a b = true ∨ le b a = true)
    (x : α) (l : List α)
    (hl : List.Pairwise (fun a b => le a b = true) l) :
    List.Pairwise (fun a b => le a b = true) (insertSorted le x l) := by
  induction l with
  | nil => simp [insertSorted]
  | cons y ys ih =>
    simp only [insertSorted]
    rcases List.pairwise_cons.mp hl with ⟨hy, hys⟩
    by_cases h : (le y x && !(le x y)) = true
    · simp only [h, if_true]
      have hyx : le y x = true := by
        have h' := h
        simp only [Bool.and_eq_true] at h'
        exact h'.1
      refine List.pairwise_cons.mpr ⟨?_, ih hys⟩
      intro z hz
      have hz' := (insertSorted_perm le x ys).mem_iff.mp hz
      rcases List.mem_cons.mp hz' with rfl | hzys
      · exact hyx
      · exact hy z hzys
    · simp only [h, if_false]
      have hxy : le x y = true := by
        by_contra hx
        have hx' : le x y = false := by
          cases hxv : le x y
          · rfl
          · exact absurd hxv hx
        have hyx : le y x = true := by
          rcases htotal x y with h1 | h1
          · exact absurd h1 hx
          · exact h1
        exact h (by simp [hyx, hx'])
      refine List.pairwise_cons.mpr ⟨?_, hl⟩
      intro z hz
      rcases List.mem_cons.mp hz with rfl | hzys
      · exact hxy
      · exact htrans x y z hxy (hy z hzys)

theorem pairwise_sortBy {α : Type} (le : α → α → Bool)
    (htrans : ∀ a b c, le a b = true → le b c = true → le a c = true)
    (htotal : ∀ a b, le a b = true ∨ le b a = true)
    (l : List α) :
    List.Pairwise (fun a b => le a b = true) (sortBy le l) := by
  induction l with
  | nil => simp [sortBy]
  | cons x xs ih => exact pairwise_insertSorted le htrans htotal x (sortBy le xs) ih

theorem findSep_bound {l : List Nat} {i : Nat} (h : findSep l = some i) :
    i + 4 ≤ l.length := by
  induction l generalizing i with
  | nil => simp [findSep] at h
  | cons x xs ih =>
    simp only [findSep] at h
    by_cases h4 : (x :: xs).take 4 = crlfcrlf
    · simp only [h4, if_pos] at h
      have hlen : (List.take 4 (x :: xs)).length = 4 := by rw [h4]; rfl
      rw [List.length_take] at hlen
      obtain rfl : i = 0 := by injection h with h'; exact h'.symm
      omega
    · simp only [h4, if_neg, not_false_iff, Option.map_eq_some'] at h
      obtain ⟨j, hj, rfl⟩ := h
      have := ih hj
      simp only [List.length_cons]
      omega

theorem editBefore_trans (a b c : NormalizedEdit) (hab : editBefore a b = true)
    (hbc : editBefore b c = true) : editBefore a c = true := by
  simp only [editBefore, Bool.or_eq_true, Bool.and_eq_true, decide_eq_true_eq,
    beq_iff_eq] at hab hbc ⊢
  omega

theorem editBefore_total (a b : NormalizedEdit) :
    editBefore a b = true ∨ editBefore b a = true := by
  simp only [editBefore, Bool.or_eq_true, Bool.and_eq_true, decide_eq_true_eq,
    beq_iff_eq]
  omega

theorem normalizeEdits_sorted_start (content : List Char) (edits : List FileTextEdit) :
    List.Pairwise (fun a b => b.start ≤ a.start) (normalizeEdits content edits) := by
  have hp := pairwise_sortBy editBefore editBefore_trans editBefore_total
    (edits.map fun e =>
      { start := offsetAt (computeLineOffsets content) e.range.start content
        endPos := offsetAt (computeLineOffsets content) e.range.endPos content
        newText := e.newText })
  refine List.Pairwise.imp ?_ hp
  intro a b h
  simp only [editBefore, Bool.or_eq_true, Bool.and_eq_true, decide_eq_true_eq,
    beq_iff_eq] at h
  omega

theorem offsetAt_le_length (lineOffsets : List Nat) (pos : EditPosition) (text : List Char) :
    offsetAt lineOffsets pos text ≤ text.length := by
  unfold offsetAt
  by_cases h : lineOffsets.length ≤ pos.line.toNat <;>
    simp [h, Nat.min_le_left]

theorem spliceEdits_ok_iff (out : List Char) (l : List NormalizedEdit) :
    (∃ res, spliceEdits out l = Except.ok res) ↔ ∀ e ∈ l, e.start ≤ e.endPos := by
  induction l generalizing out with
  | nil => simp [spliceEdits]
  | cons e rest ih =>
    simp only [spliceEdits]
    by_cases hb : e.endPos < e.start
    · simp only [hb, if_pos]
      constructor
      · intro ⟨res, hres⟩
        exact absurd hres (by simp)
      · intro h
        exact absurd (h e (List.mem_cons_self e rest)) (by omega)
    · simp only [hb, if_neg, not_false_iff]
      rw [ih]
      constructor
      · intro h e' he'
        rcases List.mem_cons.mp he' with rfl | he'
        · omega
        · exact h e' he'
      · intro h e' he'
        exact h e' (List.mem_cons_of_mem e he')

/-- C7: the edit applier converts each edit's line/character range to
offsets via the precomputed line-start table, sorts the edits by
descending start offset (`normalizeEdits` is pairwise ordered by start
offset), and splices backward; in particular applying
`{0:0 to 0:5, "Hello"}` and `{1:0 to 1:3, "X"}` to `"World\nfoo\n"`
yields exactly `"Hello\nX\n"`. -/
theorem apply_text_edits_descending_and_scenario :
    (∀ (content : List Char) (edits : List FileTextEdit),
      List.Pairwise (fun a b => b.start ≤ a.start) (normalizeEdits content edits))
    ∧ applyTextEditsToContent "World\nfoo\n".toList
        [⟨⟨⟨0, 0⟩, ⟨0, 5⟩⟩, "Hello".toList⟩, ⟨⟨⟨1, 0⟩, ⟨1, 3⟩⟩, "X".toList⟩]
        = Except.ok "Hello\nX\n".toList := by
  refine ⟨normalizeEdits_sorted_start, ?_⟩
  rfl

/-- C10: for every text and every line/character position — negative
components, characters past the end of a line, and lines past the end of
the text included — `offsetAt` returns an offset clamped into
`[0, text.length]`, and the only error `applyTextEditsToContent` can
raise is the explicit check that an edit's start offset exceeds its end
offset. -/
theorem offset_clamped_and_error_only_invalid_range :
    (∀ (lineOffsets : List Nat) (pos : EditPosition) (text : List Char),
      offsetAt lineOffsets pos text ≤ text.length)
    ∧ (∀ (content : List Char) (edits : List FileTextEdit),
        (∀ e ∈ normalizeEdits content edits, e.start ≤ e.endPos) →
          ∃ res, applyTextEditsToContent content edits = Except.ok res)
    ∧ (∀ (content : List Char) (edits : List FileTextEdit) (msg : String),
        applyTextEditsToContent content edits = Except.error msg →
          ∃ e ∈ normalizeEdits content edits, e.endPos < e.start) := by
  refine ⟨offsetAt_le_length, ?_, ?_⟩
  · intro content edits h
    unfold applyTextEditsToContent
    by_cases he : edits.isEmpty
    · simp only [if_pos he]
      exact ⟨content, rfl⟩
    · simp only [if_neg he]
      exact (spliceEdits_ok_iff content (normalizeEdits content edits)).mpr h
  · intro content edits msg herr
    unfold applyTextEditsToContent at herr
    by_cases he : edits.isEmpty
    · rw [if_pos he] at herr
      exact absurd herr (by simp)
    · rw [if_neg he] at herr
      by_contra hno
      push_neg at hno
      have hok := (spliceEdits_ok_iff content (normalizeEdits content edits)).mpr
        (fun e hme => by have := hno e hme; omega)
      obtain ⟨res, hres⟩ := hok
      rw [herr] at hres
      exact absurd hres (by simp)

/-- Witness for `offset_clamped_and_error_only_invalid_range` at a
concrete input: a well-ordered edit applies without error. -/
theorem offset_clamped_and_error_only_invalid_range_witness :
    (∀ e ∈ normalizeEdits "abc".toList [⟨⟨⟨0, 1⟩, ⟨0, 2⟩⟩, "Z".toList⟩], e.start ≤ e.endPos)
    ∧ ∃ res, applyTextEditsToContent "abc".toList [⟨⟨⟨0, 1⟩, ⟨0, 2⟩⟩, "Z".toList⟩]
        = Except.ok res :=
  ⟨by decide,
   offset_clamped_and_error_only_invalid_range.2.1 "abc".toList
     [⟨⟨⟨0, 1⟩, ⟨0, 2⟩⟩, "Z".toList⟩] (by decide)⟩

/-- C9 counterexample: the `initialize` handshake budget (30000 ms) is
not materially longer than the steady-state budgets — the definition,
references and document-symbol requests are sent with the very same
30000 ms budget. -/
theorem handshake_timeout_not_longer_cex :
    initializeRequestTimeoutMs = definitionRequestTimeoutMs
    ∧ initializeRequestTimeoutMs = referencesRequestTimeoutMs
    ∧ initializeRequestTimeoutMs = documentSymbolRequestTimeoutMs
    ∧ ¬ definitionRequestTimeoutMs < initializeRequestTimeoutMs := by decide

/-- C9 amended: the handshake request and the steady-state definition,
references and document-symbol requests all use the same 30000 ms
budget; only the rename request uses a longer one (60000 ms). -/
theorem timeout_budget_values :
    initializeRequestTimeoutMs = 30000
    ∧ definitionRequestTimeoutMs = 30000
    ∧ referencesRequestTimeoutMs = 30000
    ∧ documentSymbolRequestTimeoutMs = 30000
    ∧ renameRequestTimeoutMs = 60000 := by decide

/-- C4 counterexample: `serverAdvertisedCapability` does not treat every
unknown key permissively.  With a non-empty capability set that simply
lacks the queried key (no explicit denial anywhere), the accessor
answers `false` and the backend is skipped. -/
theorem capability_absent_key_denied_cex :
    ¬ ∀ (caps : List (String × CapValue)) (key : String),
        capLookup key caps = none → serverAdvertisedCapability caps key = true := by
  intro h
  have hc := h [("hoverProvider", CapValue.otherValue)] "definitionProvider" (by decide)
  exact absurd hc (by decide)

/-- C4 amended: only an entirely empty capability set is treated
optimistically (every key reads as supported); in a non-empty set the
gate denies exactly the keys that are absent, `null`-valued, or
explicitly `false` — any other present value reads as supported. -/
theorem capability_gate_denial_characterization :
    (∀ key, serverAdvertisedCapability [] key = true)
    ∧ ∀ (caps : List (String × CapValue)) (key : String), caps ≠ [] →
        (serverAdvertisedCapability caps key = false ↔
          capLookup key caps = none
          ∨ capLookup key caps = some CapValue.nullValue
          ∨ capLookup key caps = some (CapValue.boolean false)) := by
  constructor
  · intro key; rfl
  · intro caps key hne
    have hio : caps.isEmpty = false := by
      cases caps
      · exact absurd rfl hne
      · rfl
    unfold serverAdvertisedCapability
    rw [hio]
    simp only [Bool.false_eq_true, if_false]
    rcases hv : capLookup key caps with _ | v
    · simp
    · cases v with
      | boolean b => cases b <;> simp
      | nullValue => simp
      | otherValue => simp

/-- Witness for `capability_gate_denial_characterization` at a concrete
input: in a non-empty set an absent key is denied. -/
theorem capability_gate_denial_characterization_witness :
    ([("renameProvider", CapValue.boolean true)] : List (String × CapValue)) ≠ []
    ∧ (serverAdvertisedCapability [("renameProvider", CapValue.boolean true)] "definitionProvider" = false ↔
        capLookup "definitionProvider" [("renameProvider", CapValue.boolean true)] = none
        ∨ capLookup "definitionProvider" [("renameProvider", CapValue.boolean true)] = some CapValue.nullValue
        ∨ capLookup "definitionProvider" [("renameProvider", CapValue.boolean true)] = some (CapValue.boolean false)) :=
  ⟨by decide,
   capability_gate_denial_characterization.2
     [("renameProvider", CapValue.boolean true)] "definitionProvider" (by decide)⟩

/-- C8 counterexample: the request-id counter and the pending-request map
are not per-instance.  The first request sent to instance 1 after one
request to instance 0 is allocated id 2 — not the id 1 it receives from
a fresh client — and both pending entries live in the single client-wide
map. -/
theorem request_ids_shared_across_instances_cex :
    (runSends [0, 1] initialCorrelationState).1 = [1, 2]
    ∧ (runSends [1] initialCorrelationState).1 = [1]
    ∧ (runSends [0, 1] initialCorrelationState).1.get? 1
        ≠ (runSends [1] initialCorrelationState).1.get? 0
    ∧ (runSends [0, 1] initialCorrelationState).2.pendingIds = [1, 2] := by decide

/-- C8 amended: the id counter and pending map live on the one `LspClient`
and are shared by every backend instance; successive `sendRequest` calls
are allocated the consecutive ids 1, 2, ... regardless of which instance
each request targets, so ids never repeat and correlation by id alone is
unambiguous across instances. -/
theorem request_ids_globally_unique :
    ∀ (sends : List Nat),
      (runSends sends initialCorrelationState).1 = List.range' 1 sends.length
      ∧ (runSends sends initialCorrelationState).1.Nodup := by
  have key : ∀ (sends : List Nat) (st : ClientCorrelationState),
      (runSends sends st).1 = List.range' st.nextId sends.length := by
    intro sends
    induction sends with
    | nil => intro st; rfl
    | cons t rest ih =>
      intro st
      simp only [runSends, sendRequestAlloc, List.length_cons, List.range'_succ]
      rw [ih]
  intro sends
  refine ⟨key sends initialCorrelationState, ?_⟩
  rw [key sends initialCorrelationState]
  exact List.nodup_range' _ _

/-- C6: when symbol-name matching against the document symbols yields
more than one candidate, the rename handler replies with an ambiguity
error carrying every candidate and issues no `textDocument/rename`
request to any backend. -/
theorem rename_ambiguity_rejects_up_front :
    ∀ (docs : List (Sum DocumentSymbolNode SymbolInformation)) (symbolName : String)
      (kindHint : Option String) (dryRun : Bool),
      1 < (findSymbolsByName docs symbolName (symbolKindFromString kindHint)).length →
        handleRenameSymbol (findSymbolsByName docs symbolName (symbolKindFromString kindHint)) dryRun
          = (RenameReply.ambiguous (findSymbolsByName docs symbolName (symbolKindFromString kindHint)), 0) := by
  intro docs symbolName kindHint dryRun h
  generalize hml : findSymbolsByName docs symbolName (symbolKindFromString kindHint) = ml at h ⊢
  match ml with
  | [] => simp at h
  | [m] => simp at h
  | a :: b :: rest => rfl

/-- Witness for `rename_ambiguity_rejects_up_front`: a file with a
`class Foo` and a `function Foo` among its document symbols, queried for
`Foo` with no kind hint. -/
theorem rename_ambiguity_rejects_up_front_witness :
    1 < (findSymbolsByName
          [Sum.inl (DocumentSymbolNode.node "Foo" 5 ⟨⟨0, 0⟩, ⟨0, 10⟩⟩ ⟨⟨0, 6⟩, ⟨0, 9⟩⟩ []),
           Sum.inl (DocumentSymbolNode.node "Foo" 12 ⟨⟨2, 0⟩, ⟨2, 10⟩⟩ ⟨⟨2, 9⟩, ⟨2, 12⟩⟩ [])]
          "Foo" (symbolKindFromString none)).length
    ∧ handleRenameSymbol
        (findSymbolsByName
          [Sum.inl (DocumentSymbolNode.node "Foo" 5 ⟨⟨0, 0⟩, ⟨0, 10⟩⟩ ⟨⟨0, 6⟩, ⟨0, 9⟩⟩ []),
           Sum.inl (DocumentSymbolNode.node "Foo" 12 ⟨⟨2, 0⟩, ⟨2, 10⟩⟩ ⟨⟨2, 9⟩, ⟨2, 12⟩⟩ [])]
          "Foo" (symbolKindFromString none)) false
        = (RenameReply.ambiguous
            (findSymbolsByName
              [Sum.inl (DocumentSymbolNode.node "Foo" 5 ⟨⟨0, 0⟩, ⟨0, 10⟩⟩ ⟨⟨0, 6⟩, ⟨0, 9⟩⟩ []),
               Sum.inl (DocumentSymbolNode.node "Foo" 12 ⟨⟨2, 0⟩, ⟨2, 10⟩⟩ ⟨⟨2, 9⟩, ⟨2, 12⟩⟩ [])]
              "Foo" (symbolKindFromString none)), 0) :=
  ⟨by decide,
   rename_ambiguity_rejects_up_front
     [Sum.inl (DocumentSymbolNode.node "Foo" 5 ⟨⟨0, 0⟩, ⟨0, 10⟩⟩ ⟨⟨0, 6⟩, ⟨0, 9⟩⟩ []),
      Sum.inl (DocumentSymbolNode.node "Foo" 12 ⟨⟨2, 0⟩, ⟨2, 10⟩⟩ ⟨⟨2, 9⟩, ⟨2, 12⟩⟩ [])]
     "Foo" none false (by decide)⟩

theorem scoredBefore_trans (a b c : ScoredServer) (hab : scoredBefore a b = true)
    (hbc : scoredBefore b c = true) : scoredBefore a c = true := by
  simp only [scoredBefore, Bool.or_eq_true, Bool.and_eq_true, decide_eq_true_eq,
    beq_iff_eq] at hab hbc ⊢
  omega

theorem scoredBefore_total (a b : ScoredServer) :
    scoredBefore a b = true ∨ scoredBefore b a = true := by
  simp only [scoredBefore, Bool.or_eq_true, Bool.and_eq_true, decide_eq_true_eq,
    beq_iff_eq]
  omega

/-- C1 counterexample: an unscoped backend does not score lowest.  For
the file `/a/b/c.ts`, a backend whose explicit root `/x/y` does not
contain the file scores -1, strictly below the unscoped backend's 0, so
the router ranks the unscoped backend first. -/
theorem router_unscoped_not_lowest_cex :
    specificityScore ["a", "b", "c.ts"]
        { name := some "rooted", extensions := ["ts"], command := ["r"], rootDir := some ["x", "y"] }
      < specificityScore ["a", "b", "c.ts"]
        { name := some "global", extensions := ["ts"], command := ["g"], rootDir := none }
    ∧ orderServerConfigsBySpecificity ["a", "b", "c.ts"]
        [{ name := some "rooted", extensions := ["ts"], command := ["r"], rootDir := some ["x", "y"] },
         { name := some "global", extensions := ["ts"], command := ["g"], rootDir := none }]
      = [{ name := some "global", extensions := ["ts"], command := ["g"], rootDir := none },
         { name := some "rooted", extensions := ["ts"], command := ["r"], rootDir := some ["x", "y"] }] := by
  decide

/-- C1 amended: the router returns a permutation of the matching configs
equal to the image of the scored pipeline sorted by descending
specificity score with original configuration order breaking remaining
ties: within the sorted scored list, an earlier entry has a strictly
greater score, or an equal score and a strictly smaller original
configuration index.  A root that does not contain the file scores -1
(lowest), no explicit root scores 0, and a containing root scores 10000
plus the root path length (longer root ranks earlier).  In particular,
for `/a/b/c.ts` a backend scoped to `/a/b` ranks before an unscoped
one, and two equal-score backends keep their configuration order. -/
theorem router_orders_by_specificity_score :
    (∀ (filePath : List String) (servers : List EnriLspServerConfig),
      (orderServerConfigsBySpecificity filePath servers).Perm servers)
    ∧ (∀ (filePath : List String) (servers : List EnriLspServerConfig),
        List.Pairwise (fun a b => specificityScore filePath b ≤ specificityScore filePath a)
          (orderServerConfigsBySpecificity filePath servers))
    ∧ (∀ (filePath : List String) (servers : List EnriLspServerConfig),
        orderServerConfigsBySpecificity filePath servers
          = (sortBy scoredBefore
              (servers.enum.map fun p =>
                ScoredServer.mk p.2 p.1 (specificityScore filePath p.2))).map
              ScoredServer.server)
    ∧ (∀ (filePath : List String) (servers : List EnriLspServerConfig),
        List.Pairwise
          (fun a b => b.score < a.score ∨ (b.score = a.score ∧ a.index < b.index))
          (sortBy scoredBefore
            (servers.enum.map fun p =>
              ScoredServer.mk p.2 p.1 (specificityScore filePath p.2))))
    ∧ orderServerConfigsBySpecificity ["a", "b", "c.ts"]
        [{ name := some "global", extensions := ["ts"], command := ["g"], rootDir := none },
         { name := some "scoped", extensions := ["ts"], command := ["s"], rootDir := some ["a", "b"] }]
      = [{ name := some "scoped", extensions := ["ts"], command := ["s"], rootDir := some ["a", "b"] },
         { name := some "global", extensions := ["ts"], command := ["g"], rootDir := none }]
    ∧ orderServerConfigsBySpecificity ["a", "b", "c.ts"]
        [{ name := some "first", extensions := ["ts"], command := ["f"], rootDir := none },
         { name := some "second", extensions := ["ts"], command := ["s"], rootDir := none }]
      = [{ name := some "first", extensions := ["ts"], command := ["f"], rootDir := none },
         { name := some "second", extensions := ["ts"], command := ["s"], rootDir := none }] := by
  refine ⟨?_, ?_, ?_, ?_, by decide, by decide⟩
  · intro filePath servers
    unfold orderServerConfigsBySpecificity
    by_cases hle : servers.length ≤ 1
    · simp [hle]
    · simp only [if_neg hle]
      have h1 : ((sortBy scoredBefore
          (servers.enum.map fun p => ScoredServer.mk p.2 p.1 (specificityScore filePath p.2))).map
            ScoredServer.server).Perm
          ((servers.enum.map fun p => ScoredServer.mk p.2 p.1 (specificityScore filePath p.2)).map
            ScoredServer.server) :=
        (sortBy_perm scoredBefore _).map ScoredServer.server
      have h2 : ((servers.enum.map fun p => ScoredServer.mk p.2 p.1 (specificityScore filePath p.2)).map
          ScoredServer.server) = servers := by
        rw [List.map_map]
        have h3 : (ScoredServer.server ∘ fun p : Nat × EnriLspServerConfig =>
            ScoredServer.mk p.2 p.1 (specificityScore filePath p.2)) = Prod.snd := rfl
        rw [h3, List.enum_map_snd]
      rw [h2] at h1
      exact h1
  · intro filePath servers
    unfold orderServerConfigsBySpecificity
    by_cases hle : servers.length ≤ 1
    · simp only [if_pos hle]
      rcases servers with _ | ⟨s, _ | ⟨t, rest⟩⟩
      · exact List.Pairwise.nil
      · simp
      · simp at hle
    · simp only [if_neg hle]
      have hp := pairwise_sortBy scoredBefore scoredBefore_trans scoredBefore_total
        (servers.enum.map fun p => ScoredServer.mk p.2 p.1 (specificityScore filePath p.2))
      rw [List.pairwise_map]
      refine List.Pairwise.imp_of_mem ?_ hp
      intro a b ha hb hab
      have hscore : ∀ x ∈ sortBy scoredBefore
          (servers.enum.map fun p => ScoredServer.mk p.2 p.1 (specificityScore filePath p.2)),
          x.score = specificityScore filePath x.server := by
        intro x hx
        have hx' := (sortBy_perm scoredBefore _).mem_iff.mp hx
        obtain ⟨p, _, rfl⟩ := List.mem_map.mp hx'
        rfl
      have ha' := hscore a ha
      have hb' := hscore b hb
      simp only [scoredBefore, Bool.or_eq_true, Bool.and_eq_true, decide_eq_true_eq,
        beq_iff_eq] at hab
      omega
  · intro filePath servers
    unfold orderServerConfigsBySpecificity
    by_cases hle : servers.length ≤ 1
    · simp only [if_pos hle]
      rcases servers with _ | ⟨s, _ | ⟨t, rest⟩⟩
      · rfl
      · rfl
      · simp at hle
    · simp only [if_neg hle]
  · intro filePath servers
    have hp := pairwise_sortBy scoredBefore scoredBefore_trans scoredBefore_total
      (servers.enum.map fun p => ScoredServer.mk p.2 p.1 (specificityScore filePath p.2))
    have hidx : ((servers.enum.map fun p =>
        ScoredServer.mk p.2 p.1 (specificityScore filePath p.2)).map ScoredServer.index).Nodup := by
      rw [List.map_map]
      have hcomp : (ScoredServer.index ∘ fun p : Nat × EnriLspServerConfig =>
          ScoredServer.mk p.2 p.1 (specificityScore filePath p.2)) = Prod.fst := rfl
      rw [hcomp, List.enum_map_fst]
      exact List.nodup_range _
    have hidx' : ((sortBy scoredBefore
        (servers.enum.map fun p =>
          ScoredServer.mk p.2 p.1 (specificityScore filePath p.2))).map
          ScoredServer.index).Nodup :=
      (((sortBy_perm scoredBefore _).map ScoredServer.index).nodup_iff).mpr hidx
    have hne : List.Pairwise (fun a b => a.index ≠ b.index)
        (sortBy scoredBefore
          (servers.enum.map fun p =>
            ScoredServer.mk p.2 p.1 (specificityScore filePath p.2))) :=
      List.pairwise_map.mp hidx'
    refine (hp.and hne).imp ?_
    intro a b hab
    obtain ⟨hab1, hab2⟩ := hab
    simp only [scoredBefore, Bool.or_eq_true, Bool.and_eq_true, decide_eq_true_eq,
      beq_iff_eq] at hab1
    omega

theorem correlationStep_inv (st : CorrelationState) (e : CorrelationEvent)
    (h : CorrelationInv st) : CorrelationInv (correlationStep st e) := by
  obtain ⟨h1, h2, h3, h4, h5⟩ := h
  cases e with
  | send =>
    simp only [correlationStep]
    refine ⟨h1, ?_, ?_, ?_, ?_⟩
    · intro n hn
      simp only [List.mem_append, List.mem_singleton]
      rintro (hp | hq)
      · exact h2 n hn hp
      · have := h4 n hn
        omega
    · intro n hn
      rcases List.mem_append.mp hn with hp | hs
      · exact Nat.lt_succ_of_lt (h3 n hp)
      · simp only [List.mem_singleton] at hs
        show n < st.nextId + 1
        omega
    · intro n hn
      exact Nat.lt_succ_of_lt (h4 n hn)
    · rw [List.nodup_append]
      refine ⟨h5, List.nodup_singleton _, ?_⟩
      intro a ha
      simp only [List.mem_singleton]
      intro rfh
      have := h3 a ha
      omega
  | response rid isError =>
    simp only [correlationStep]
    by_cases hmem : rid ∈ st.pending
    · rw [if_pos hmem]
      refine ⟨?_, ?_, ?_, ?_, ?_⟩
      · simp only [List.map_append, List.map_cons, List.map_nil]
        rw [List.nodup_append]
        refine ⟨h1, List.nodup_singleton _, ?_⟩
        intro a ha
        simp only [List.mem_singleton]
        intro rfh
        rw [rfh] at ha
        exact h2 rid ha hmem
      · intro n hn
        simp only [List.map_append, List.map_cons, List.map_nil] at hn
        rcases List.mem_append.mp hn with hk | hk
        · intro hin
          exact h2 n hk (List.mem_of_mem_erase hin)
        · simp only [List.mem_singleton] at hk
          subst hk
          intro hin
          exact absurd ((h5.mem_erase_iff).mp hin).1 (by simp)
      · intro n hn
        exact h3 n (List.mem_of_mem_erase hn)
      · intro n hn
        simp only [List.map_append, List.map_cons, List.map_nil] at hn
        rcases List.mem_append.mp hn with hk | hk
        · exact h4 n hk
        · simp only [List.mem_singleton] at hk
          subst hk
          exact h3 n hmem
      · exact List.Nodup.erase _ h5
    · rw [if_neg hmem]
      exact ⟨h1, h2, h3, h4, h5⟩
  | timeoutFire rid =>
    simp only [correlationStep]
    by_cases hmem : rid ∈ st.pending
    · rw [if_pos hmem]
      refine ⟨?_, ?_, ?_, ?_, ?_⟩
      · simp only [List.map_append, List.map_cons, List.map_nil]
        rw [List.nodup_append]
        refine ⟨h1, List.nodup_singleton _, ?_⟩
        intro a ha
        simp only [List.mem_singleton]
        intro rfh
        rw [rfh] at ha
        exact h2 rid ha hmem
      · intro n hn
        simp only [List.map_append, List.map_cons, List.map_nil] at hn
        rcases List.mem_append.mp hn with hk | hk
        · intro hin
          exact h2 n hk (List.mem_of_mem_erase hin)
        · simp only [List.mem_singleton] at hk
          subst hk
          intro hin
          exact absurd ((h5.mem_erase_iff).mp hin).1 (by simp)
      · intro n hn
        exact h3 n (List.mem_of_mem_erase hn)
      · intro n hn
        simp only [List.map_append, List.map_cons, List.map_nil] at hn
        rcases List.mem_append.mp hn with hk | hk
        · exact h4 n hk
        · simp only [List.mem_singleton] at hk
          subst hk
          exact h3 n hmem
      · exact List.Nodup.erase _ h5
    · rw [if_neg hmem]
      exact ⟨h1, h2, h3, h4, h5⟩

theorem runCorrelation_inv (trace : List CorrelationEvent) :
    CorrelationInv (runCorrelation trace) := by
  have key : ∀ (tr : List CorrelationEvent) (st : CorrelationState),
      CorrelationInv st → CorrelationInv (tr.foldl correlationStep st) := by
    intro tr
    induction tr with
    | nil => intro st h; exact h
    | cons e rest ih =>
      intro st h
      exact ih (correlationStep st e) (correlationStep_inv st e h)
  refine key trace initialCorrelation ⟨List.nodup_nil, ?_, ?_, ?_, List.nodup_nil⟩
  · intro id hid; simp [initialCorrelation] at hid
  · intro id hid; simp [initialCorrelation] at hid
  · intro id hid; simp [initialCorrelation] at hid

/-- C5: every pending request is settled at most once (outcome ids are
unique), a settled id is no longer pending, a pending id always has its
timeout transition live (so one of response, error response, or timeout
settles it), and a response whose id has no pending entry is dropped
without changing any state. -/
theorem pending_request_single_settlement :
    ∀ (trace : List CorrelationEvent),
      ((runCorrelation trace).outcomes.map Prod.fst).Nodup
      ∧ (∀ id ∈ (runCorrelation trace).outcomes.map Prod.fst,
          id ∉ (runCorrelation trace).pending)
      ∧ (∀ id ∈ (runCorrelation trace).pending,
          correlationStep (runCorrelation trace) (CorrelationEvent.timeoutFire id)
            ≠ runCorrelation trace)
      ∧ (∀ (st : CorrelationState) (id : Nat) (isError : Bool),
          id ∉ st.pending →
            correlationStep st (CorrelationEvent.response id isError) = st) := by
  intro trace
  obtain ⟨h1, h2, _, _, _⟩ := runCorrelation_inv trace
  refine ⟨h1, h2, ?_, ?_⟩
  · intro id hid heq
    have hlen : (correlationStep (runCorrelation trace) (CorrelationEvent.timeoutFire id)).outcomes.length
        = (runCorrelation trace).outcomes.length := by rw [heq]
    simp only [correlationStep, if_pos hid] at hlen
    simp at hlen
  · intro st id isError hnot
    simp only [correlationStep, if_neg hnot]

/-- Witness for `pending_request_single_settlement`: one request sent and
settled by its matching response; a duplicate response for the same id
is dropped without changing the state. -/
theorem pending_request_single_settlement_witness :
    ((runCorrelation [CorrelationEvent.send, CorrelationEvent.response 1 false]).outcomes.map
        Prod.fst).Nodup
    ∧ (1 ∉ (runCorrelation [CorrelationEvent.send, CorrelationEvent.response 1 false]).pending)
    ∧ correlationStep (runCorrelation [CorrelationEvent.send, CorrelationEvent.response 1 false])
        (CorrelationEvent.response 1 true)
        = runCorrelation [CorrelationEvent.send, CorrelationEvent.response 1 false] :=
  ⟨(pending_request_single_settlement [CorrelationEvent.send, CorrelationEvent.response 1 false]).1,
   (pending_request_single_settlement [CorrelationEvent.send, CorrelationEvent.response 1 false]).2.1
     1 (by decide),
   (pending_request_single_settlement [CorrelationEvent.send, CorrelationEvent.response 1 false]).2.2.2
     (runCorrelation [CorrelationEvent.send, CorrelationEvent.response 1 false]) 1 true
     ((pending_request_single_settlement [CorrelationEvent.send, CorrelationEvent.response 1 false]).2.1
       1 (by decide))⟩

theorem supervisorStep_inv (st st' : SupervisorState) (e : SupervisorEvent)
    (hin : SupervisorInv st) (hstep : supervisorStep st e = some st')
    (hnofail : e ≠ SupervisorEvent.finishStart false) : SupervisorInv st' := by
  obtain ⟨h1, h2, h3, h4, h5⟩ := hin
  cases e with
  | runAcquire i =>
    simp only [supervisorStep] at hstep
    rcases hg : st.calls.get? i with _ | c
    · rw [hg] at hstep
      exact absurd hstep (by simp)
    · rw [hg] at hstep
      cases c with
      | pending =>
        by_cases hl : st.live = true
        · rw [if_pos hl] at hstep
          obtain rfl := (Option.some.inj hstep).symm
          have hsp : st.spawns = 1 := h3.mp (Or.inl hl)
          exact ⟨h1, h2, h3, fun h0 => absurd (h0 ▸ hsp) (by omega), h5⟩
        · rw [if_neg hl] at hstep
          by_cases hs : st.starting = true
          · rw [if_pos hs] at hstep
            obtain rfl := (Option.some.inj hstep).symm
            have hsp : st.spawns = 1 := h3.mp (Or.inr hs)
            exact ⟨h1, h2, h3, fun h0 => absurd (h0 ▸ hsp) (by omega), h5⟩
          · rw [if_neg hs] at hstep
            obtain rfl := (Option.some.inj hstep).symm
            have hl' : st.live = false := by
              cases hv : st.live
              · rfl
              · exact absurd hv hl
            have hsp : st.spawns = 0 := by
              have hne : st.spawns ≠ 1 := fun h1' => by
                rcases h3.mpr h1' with hc | hc
                · exact hl hc
                · exact hs hc
              omega
            refine ⟨by simp [h1], by simp [hsp], ?_, ?_, ?_⟩
            · simp [hsp]
            · intro h0
              simp [hsp] at h0
            · simp [hl']
      | waiting => simp at hstep
      | done => simp at hstep
      | failed => simp at hstep
  | finishStart ok =>
    cases ok
    · exact absurd rfl hnofail
    · simp only [supervisorStep] at hstep
      by_cases hs : st.starting = true
      · rw [if_pos hs] at hstep
        obtain rfl := (Option.some.inj hstep).symm
        have hsp : st.spawns = 1 := h3.mp (Or.inr hs)
        refine ⟨h1, h2, ?_, ?_, ?_⟩
        · simp [hsp]
        · intro h0
          simp only at h0
          omega
        · simp
      · rw [if_neg hs] at hstep
        exact absurd hstep (by simp)

theorem runSupervisor_inv (trace : List SupervisorEvent) :
    ∀ (st st' : SupervisorState), SupervisorInv st → runSupervisor trace st = some st' →
      SupervisorEvent.finishStart false ∉ trace → SupervisorInv st' := by
  induction trace with
  | nil =>
    intro st st' h hrun _
    obtain rfl := Option.some.inj hrun
    exact h
  | cons e rest ih =>
    intro st st' h hrun hnf
    simp only [runSupervisor] at hrun
    rcases hs : supervisorStep st e with _ | st1
    · rw [hs] at hrun
      exact absurd hrun (by simp)
    · rw [hs] at hrun
      have hne : e ≠ SupervisorEvent.finishStart false := by
        intro he
        exact hnf (he ▸ List.mem_cons_self e rest)
      exact ih st1 st' (supervisorStep_inv st st1 e h hs hne) hrun
        (fun hm => hnf (List.mem_cons_of_mem e hm))

theorem initSupervisor_inv (n : Nat) : SupervisorInv (initSupervisor n) := by
  refine ⟨rfl, by simp [initSupervisor], by simp [initSupervisor], ?_, by simp [initSupervisor]⟩
  intro _ c hc
  exact List.eq_of_mem_replicate hc

/-- C3: on any failure-free interleaving, N concurrent acquire calls for
one uniqueness key spawn exactly one process and run exactly one
handshake (no spawn happens at all only while no call has run); an
acquire finding a live instance returns it without spawning, an acquire
finding an in-flight start awaits it without spawning; and a failed
start clears the in-flight marker so that a later acquire retries with a
fresh spawn. -/
theorem acquire_start_deduplication :
    (∀ (n : Nat) (trace : List SupervisorEvent) (st' : SupervisorState),
      runSupervisor trace (initSupervisor n) = some st' →
      SupervisorEvent.finishStart false ∉ trace →
        st'.spawns ≤ 1 ∧ st'.handshakes = st'.spawns
        ∧ (st'.spawns = 0 → ∀ c ∈ st'.calls, c = CallPhase.pending))
    ∧ (∀ (st : SupervisorState) (i : Nat),
        st.calls.get? i = some CallPhase.pending → st.live = true →
        supervisorStep st (SupervisorEvent.runAcquire i)
          = some { st with calls := st.calls.set i CallPhase.done })
    ∧ (∀ (st : SupervisorState) (i : Nat),
        st.calls.get? i = some CallPhase.pending → st.live = false → st.starting = true →
        supervisorStep st (SupervisorEvent.runAcquire i)
          = some { st with calls := st.calls.set i CallPhase.waiting })
    ∧ runSupervisor [SupervisorEvent.runAcquire 0, SupervisorEvent.finishStart false]
        (initSupervisor 2)
      = some { live := false, starting := false, spawns := 1, handshakes := 1,
               calls := [CallPhase.failed, CallPhase.pending] }
    ∧ runSupervisor [SupervisorEvent.runAcquire 0, SupervisorEvent.finishStart false,
        SupervisorEvent.runAcquire 1] (initSupervisor 2)
      = some { live := false, starting := true, spawns := 2, handshakes := 2,
               calls := [CallPhase.failed, CallPhase.waiting] } := by
  refine ⟨?_, ?_, ?_, by decide, by decide⟩
  · intro n trace st' hrun hnf
    obtain ⟨h1, h2, h3, h4, _⟩ := runSupervisor_inv trace (initSupervisor n) st'
      (initSupervisor_inv n) hrun hnf
    exact ⟨h2, h1, h4⟩
  · intro st i hg hl
    simp only [supervisorStep, hg, if_pos hl]
  · intro st i hg hl hs
    have hl' : ¬ st.live = true := by simp [hl]
    simp only [supervisorStep, hg, if_neg hl', if_pos hs]

/-- Witness for `acquire_start_deduplication`: two concurrent acquires
followed by a successful handshake observe one spawn and one handshake. -/
theorem acquire_start_deduplication_witness :
    ({ live := true, starting := false, spawns := 1, handshakes := 1,
        calls := [CallPhase.done, CallPhase.done] } : SupervisorState).spawns ≤ 1
    ∧ ({ live := true, starting := false, spawns := 1, handshakes := 1,
          calls := [CallPhase.done, CallPhase.done] } : SupervisorState).handshakes
        = ({ live := true, starting := false, spawns := 1, handshakes := 1,
              calls := [CallPhase.done, CallPhase.done] } : SupervisorState).spawns :=
  ⟨(acquire_start_deduplication.1 2
      [SupervisorEvent.runAcquire 0, SupervisorEvent.runAcquire 1, SupervisorEvent.finishStart true]
      { live := true, starting := false, spawns := 1, handshakes := 1,
        calls := [CallPhase.done, CallPhase.done] } (by decide) (by decide)).1,
   (acquire_start_deduplication.1 2
      [SupervisorEvent.runAcquire 0, SupervisorEvent.runAcquire 1, SupervisorEvent.finishStart true]
      { live := true, starting := false, spawns := 1, handshakes := 1,
        calls := [CallPhase.done, CallPhase.done] } (by decide) (by decide)).2.1⟩

theorem natToDecimalAux_digits (fuel : Nat) :
    ∀ (n : Nat), ∀ b ∈ natToDecimalAux fuel n, 48 ≤ b ∧ b ≤ 57 := by
  induction fuel with
  | zero => intro n b hb; simp [natToDecimalAux] at hb
  | succ fuel ih =>
    intro n b hb
    simp only [natToDecimalAux] at hb
    by_cases h : n < 10
    · rw [if_pos h] at hb
      simp only [List.mem_singleton] at hb
      omega
    · rw [if_neg h] at hb
      rcases List.mem_append.mp hb with h1 | h1
      · exact ih (n / 10) b h1
      · simp only [List.mem_singleton] at h1
        have := Nat.mod_lt n (show 0 < 10 by omega)
        omega

theorem parseDecDigits_append_digit (ds : List Nat) (b : Nat) :
    parseDecDigits (ds ++ [b]) = parseDecDigits ds * 10 + (b - 48) := by
  simp [parseDecDigits, List.foldl_append]

theorem parseDecDigits_natToDecimalAux (fuel : Nat) :
    ∀ (n : Nat), n < fuel → parseDecDigits (natToDecimalAux fuel n) = n := by
  induction fuel with
  | zero => intro n h; omega
  | succ fuel ih =>
    intro n h
    simp only [natToDecimalAux]
    by_cases h10 : n < 10
    · rw [if_pos h10]
      simp only [parseDecDigits, List.foldl_cons, List.foldl_nil]
      omega
    · rw [if_neg h10]
      rw [parseDecDigits_append_digit, ih (n / 10) (by omega)]
      omega

theorem natToDecimal_digits (n : Nat) : ∀ b ∈ natToDecimal n, 48 ≤ b ∧ b ≤ 57 :=
  natToDecimalAux_digits (n + 1) n

theorem parseDecDigits_natToDecimal (n : Nat) : parseDecDigits (natToDecimal n) = n :=
  parseDecDigits_natToDecimalAux (n + 1) n (Nat.lt_succ_self n)

theorem natToDecimal_ne_nil (n : Nat) : natToDecimal n ≠ [] := by
  unfold natToDecimal natToDecimalAux
  by_cases h : n < 10
  · rw [if_pos h]; simp
  · rw [if_neg h]; simp

theorem findSep_append (l e : List Nat) (i : Nat) (h : findSep l = some i) :
    findSep (l ++ e) = some i := by
  induction l generalizing i with
  | nil => simp [findSep] at h
  | cons x xs ih =>
    have hb := findSep_bound h
    have hlen4 : 4 ≤ (x :: xs).length := by
      simp only [List.length_cons] at hb ⊢
      omega
    have htake : (x :: (xs ++ e)).take 4 = (x :: xs).take 4 := by
      rw [show x :: (xs ++ e) = (x :: xs) ++ e from rfl]
      exact List.take_append_of_le_length hlen4
    rw [List.cons_append, findSep, htake]
    rw [findSep] at h
    by_cases h4 : (x :: xs).take 4 = crlfcrlf
    · rw [if_pos h4] at h ⊢
      exact h
    · rw [if_neg h4] at h ⊢
      obtain ⟨j, hj, rfl⟩ := Option.map_eq_some'.mp h
      rw [ih j hj]
      rfl

theorem findSep_no13 (H t : List Nat) (hH : ∀ b ∈ H, b ≠ 13) :
    findSep (H ++ (crlfcrlf ++ t)) = some H.length := by
  induction H with
  | nil =>
    rw [List.nil_append]
    rw [show crlfcrlf ++ t = 13 :: (10 :: 13 :: 10 :: t) from rfl]
    rw [findSep]
    rw [if_pos (show List.take 4 (13 :: 10 :: 13 :: 10 :: t) = crlfcrlf from rfl)]
    rfl
  | cons b H ih =>
    have hb : b ≠ 13 := hH b (List.mem_cons_self _ _)
    rw [List.cons_append, findSep]
    have hne : (b :: (H ++ (crlfcrlf ++ t))).take 4 ≠ crlfcrlf := by
      intro hEq
      have hhead := congrArg (fun l => l.head?) hEq
      simp only [crlfcrlf] at hhead
      simp at hhead
      exact hb hhead
    rw [if_neg hne, ih (fun c hc => hH c (List.mem_cons_of_mem _ hc))]
    rfl

theorem map_mod128_eq_self (l : List Nat) (h : ∀ b ∈ l, b < 128) :
    l.map (· % 128) = l := by
  induction l with
  | nil => rfl
  | cons x xs ih =>
    simp only [List.map_cons]
    rw [Nat.mod_eq_of_lt (h x (List.mem_cons_self _ _)),
      ih fun b hb => h b (List.mem_cons_of_mem _ hb)]

theorem encodeHeader_bytes (n : Nat) :
    ∀ b ∈ contentLengthHeaderBytes ++ natToDecimal n, b < 128 ∧ b ≠ 13 := by
  intro b hb
  rcases List.mem_append.mp hb with h | h
  · have hall : ∀ b ∈ contentLengthHeaderBytes, b < 128 ∧ b ≠ 13 := by decide
    exact hall b h
  · have hd := natToDecimal_digits n b h
    omega

theorem dropWhile_ws_digits (ds : List Nat) (h : ∀ b ∈ ds, 48 ≤ b ∧ b ≤ 57) :
    ds.dropWhile isWhitespaceByte = ds := by
  cases ds with
  | nil => rfl
  | cons d rest =>
    have hd := h d (List.mem_cons_self _ _)
    have hw : isWhitespaceByte d = false := by
      simp only [isWhitespaceByte, Bool.or_eq_false_iff, beq_eq_false_iff_ne, ne_eq]
      omega
    rw [List.dropWhile_cons, hw]
    rfl

theorem takeWhile_digits (ds : List Nat) (h : ∀ b ∈ ds, 48 ≤ b ∧ b ≤ 57) :
    ds.takeWhile isDigitByte = ds := by
  induction ds with
  | nil => rfl
  | cons d rest ih =>
    have hd := h d (List.mem_cons_self _ _)
    have hdig : isDigitByte d = true := by
      simp only [isDigitByte, Bool.and_eq_true, decide_eq_true_eq]
      omega
    rw [List.takeWhile_cons, hdig]
    simp only [if_true]
    rw [ih fun b hb => h b (List.mem_cons_of_mem _ hb)]

theorem matchContentLengthAt_header (ds : List Nat) (hds : ∀ b ∈ ds, 48 ≤ b ∧ b ≤ 57)
    (hne : ds ≠ []) :
    matchContentLengthAt (contentLengthHeaderBytes ++ ds) = some (parseDecDigits ds) := by
  have h1 : ((contentLengthHeaderBytes ++ ds).take 15).map lowerByte = contentLengthLit := by
    rw [List.take_append_of_le_length (by decide : 15 ≤ contentLengthHeaderBytes.length)]
    decide
  unfold matchContentLengthAt
  rw [if_pos h1]
  have h2 : (contentLengthHeaderBytes ++ ds).drop 15 = 32 :: ds := by
    rw [List.drop_append_of_le_length (by decide : 15 ≤ contentLengthHeaderBytes.length)]
    rw [show contentLengthHeaderBytes.drop 15 = [32] by decide]
    rfl
  rw [h2]
  rw [List.dropWhile_cons]
  rw [show isWhitespaceByte 32 = true by decide]
  simp only [if_true]
  rw [dropWhile_ws_digits ds hds, takeWhile_digits ds hds]
  have hempty : ds.isEmpty = false := by
    cases ds with
    | nil => exact absurd rfl hne
    | cons d rest => rfl
  rw [hempty]
  rfl

theorem findContentLength_header (ds : List Nat) (hds : ∀ b ∈ ds, 48 ≤ b ∧ b ≤ 57)
    (hne : ds ≠ []) :
    findContentLength (contentLengthHeaderBytes ++ ds) = some (parseDecDigits ds) := by
  have hm := matchContentLengthAt_header ds hds hne
  rw [show contentLengthHeaderBytes ++ ds
      = 67 :: ([111, 110, 116, 101, 110, 116, 45, 76, 101, 110, 103, 116, 104, 58, 32] ++ ds)
    from rfl] at hm ⊢
  rw [findContentLength, hm]

theorem drainServerBufferAux_fuel :
    ∀ (f1 : Nat), ∀ (buffer : List Nat) (f2 : Nat), buffer.length < f1 → buffer.length < f2 →
      drainServerBufferAux f1 buffer = drainServerBufferAux f2 buffer := by
  intro f1
  induction f1 with
  | zero => intro buffer f2 h1 _; omega
  | succ f1 ih =>
    intro buffer f2 h1 h2
    cases f2 with
    | zero => omega
    | succ f2 =>
      simp only [drainServerBufferAux]
      rcases hsep : findSep buffer with _ | headerEnd
      · rfl
      · have hb := findSep_bound hsep
        dsimp only
        rcases hcl : findContentLength ((buffer.take headerEnd).map (· % 128)) with _ | length
        · exact ih (buffer.drop (headerEnd + 4)) f2
            (by rw [List.length_drop]; omega) (by rw [List.length_drop]; omega)
        · dsimp only
          by_cases hlt : buffer.length < headerEnd + 4 + length
          · rw [if_pos hlt, if_pos hlt]
          · rw [if_neg hlt, if_neg hlt]
            rw [ih (buffer.drop (headerEnd + 4 + length)) f2
              (by rw [List.length_drop]; omega) (by rw [List.length_drop]; omega)]

/-- One-step unfolding of `drainServerBuffer`, phrased recursively. -/
theorem drainServerBuffer_eq (buffer : List Nat) :
    drainServerBuffer buffer
      = match findSep buffer with
        | none => ([], buffer)
        | some headerEnd =>
          match findContentLength ((buffer.take headerEnd).map (· % 128)) with
          | none => drainServerBuffer (buffer.drop (headerEnd + 4))
          | some length =>
            if buffer.length < headerEnd + 4 + length then ([], buffer)
            else
              ((buffer.drop (headerEnd + 4)).take length
                  :: (drainServerBuffer (buffer.drop (headerEnd + 4 + length))).1,
                (drainServerBuffer (buffer.drop (headerEnd + 4 + length))).2) := by
  show drainServerBufferAux (buffer.length + 1) buffer = _
  simp only [drainServerBufferAux]
  rcases hsep : findSep buffer with _ | headerEnd
  · rfl
  · have hb := findSep_bound hsep
    dsimp only
    rcases hcl : findContentLength ((buffer.take headerEnd).map (· % 128)) with _ | length
    · exact drainServerBufferAux_fuel buffer.length (buffer.drop (headerEnd + 4))
        ((buffer.drop (headerEnd + 4)).length + 1)
        (by rw [List.length_drop]; omega) (by omega)
    · dsimp only
      by_cases hlt : buffer.length < headerEnd + 4 + length
      · rw [if_pos hlt, if_pos hlt]
      · rw [if_neg hlt, if_neg hlt]
        rw [drainServerBufferAux_fuel buffer.length (buffer.drop (headerEnd + 4 + length))
          ((buffer.drop (headerEnd + 4 + length)).length + 1)
          (by rw [List.length_drop]; omega) (by omega)]
        rfl

theorem drainServerBuffer_nil : drainServerBuffer [] = ([], []) := by
  rw [drainServerBuffer_eq]
  rfl

theorem drain_snd_quiescent (l : List Nat) :
    drainServerBuffer (drainServerBuffer l).2 = ([], (drainServerBuffer l).2) := by
  have key : ∀ (n : Nat), ∀ (l : List Nat), l.length = n →
      drainServerBuffer (drainServerBuffer l).2 = ([], (drainServerBuffer l).2) := by
    intro n
    induction n using Nat.strong_induction_on with
    | _ n ih =>
      intro l hlen
      rcases hsep : findSep l with _ | headerEnd
      · have hdl : drainServerBuffer l = ([], l) := by
          rw [drainServerBuffer_eq l, hsep]
        rw [hdl]
        exact hdl
      · have hb := findSep_bound hsep
        rcases hcl : findContentLength ((l.take headerEnd).map (· % 128)) with _ | length
        · have hdl : drainServerBuffer l = drainServerBuffer (l.drop (headerEnd + 4)) := by
            rw [drainServerBuffer_eq l, hsep]
            dsimp only
            rw [hcl]
          rw [hdl]
          exact ih (l.drop (headerEnd + 4)).length (by rw [List.length_drop]; omega) _ rfl
        · by_cases hlt : l.length < headerEnd + 4 + length
          · have hdl : drainServerBuffer l = ([], l) := by
              rw [drainServerBuffer_eq l, hsep]
              dsimp only
              rw [hcl]
              dsimp only
              rw [if_pos hlt]
            rw [hdl]
            exact hdl
          · have hdl : drainServerBuffer l
                = ((l.drop (headerEnd + 4)).take length
                    :: (drainServerBuffer (l.drop (headerEnd + 4 + length))).1,
                   (drainServerBuffer (l.drop (headerEnd + 4 + length))).2) := by
              rw [drainServerBuffer_eq l, hsep]
              dsimp only
              rw [hcl]
              dsimp only
              rw [if_neg hlt]
            rw [hdl]
            exact ih (l.drop (headerEnd + 4 + length)).length
              (by rw [List.length_drop]; omega) _ rfl
  exact key l.length l rfl

theorem drain_append (l e : List Nat) :
    drainServerBuffer (l ++ e)
      = ((drainServerBuffer l).1
            ++ (drainServerBuffer ((drainServerBuffer l).2 ++ e)).1,
         (drainServerBuffer ((drainServerBuffer l).2 ++ e)).2) := by
  have key : ∀ (n : Nat), ∀ (l e : List Nat), l.length = n →
      drainServerBuffer (l ++ e)
        = ((drainServerBuffer l).1
              ++ (drainServerBuffer ((drainServerBuffer l).2 ++ e)).1,
           (drainServerBuffer ((drainServerBuffer l).2 ++ e)).2) := by
    intro n
    induction n using Nat.strong_induction_on with
    | _ n ih =>
      intro l e hlen
      rcases hsep : findSep l with _ | headerEnd
      · have hdl : drainServerBuffer l = ([], l) := by
          rw [drainServerBuffer_eq l, hsep]
        rw [hdl]
        simp
      · have hb := findSep_bound hsep
        have hsep' : findSep (l ++ e) = some headerEnd := findSep_append l e headerEnd hsep
        have htake : (l ++ e).take headerEnd = l.take headerEnd :=
          List.take_append_of_le_length (by omega)
        rcases hcl : findContentLength ((l.take headerEnd).map (· % 128)) with _ | length
        · have hdl : drainServerBuffer l = drainServerBuffer (l.drop (headerEnd + 4)) := by
            rw [drainServerBuffer_eq l, hsep]
            dsimp only
            rw [hcl]
          have hdrop : (l ++ e).drop (headerEnd + 4) = l.drop (headerEnd + 4) ++ e :=
            List.drop_append_of_le_length (by omega)
          have hlhs : drainServerBuffer (l ++ e)
              = drainServerBuffer (l.drop (headerEnd + 4) ++ e) := by
            rw [drainServerBuffer_eq (l ++ e), hsep']
            dsimp only
            rw [htake, hcl]
            dsimp only
            rw [hdrop]
          rw [hlhs, hdl]
          exact ih (l.drop (headerEnd + 4)).length (by rw [List.length_drop]; omega) _ e rfl
        · by_cases hlt : l.length < headerEnd + 4 + length
          · have hdl : drainServerBuffer l = ([], l) := by
              rw [drainServerBuffer_eq l, hsep]
              dsimp only
              rw [hcl]
              dsimp only
              rw [if_pos hlt]
            rw [hdl]
            simp
          · have hlen2 : ¬ (l ++ e).length < headerEnd + 4 + length := by
              rw [List.length_append]
              omega
            have hdl : drainServerBuffer l
                = ((l.drop (headerEnd + 4)).take length
                    :: (drainServerBuffer (l.drop (headerEnd + 4 + length))).1,
                   (drainServerBuffer (l.drop (headerEnd + 4 + length))).2) := by
              rw [drainServerBuffer_eq l, hsep]
              dsimp only
              rw [hcl]
              dsimp only
              rw [if_neg hlt]
            have hdrop4 : (l ++ e).drop (headerEnd + 4) = l.drop (headerEnd + 4) ++ e :=
              List.drop_append_of_le_length (by omega)
            have hbody : ((l ++ e).drop (headerEnd + 4)).take length
                = (l.drop (headerEnd + 4)).take length := by
              rw [hdrop4]
              exact List.take_append_of_le_length (by rw [List.length_drop]; omega)
            have hdroplen : (l ++ e).drop (headerEnd + 4 + length)
                = l.drop (headerEnd + 4 + length) ++ e :=
              List.drop_append_of_le_length (by omega)
            have hlhs : drainServerBuffer (l ++ e)
                = ((l.drop (headerEnd + 4)).take length
                    :: (drainServerBuffer (l.drop (headerEnd + 4 + length) ++ e)).1,
                   (drainServerBuffer (l.drop (headerEnd + 4 + length) ++ e)).2) := by
              rw [drainServerBuffer_eq (l ++ e), hsep']
              dsimp only
              rw [htake, hcl]
              dsimp only
              rw [if_neg hlen2, hbody, hdroplen]
            rw [hlhs, hdl]
            rw [ih (l.drop (headerEnd + 4 + length)).length
              (by rw [List.length_drop]; omega) (l.drop (headerEnd + 4 + length)) e rfl]
            simp
  exact key l.length l e rfl

theorem drain_encodeFrame (b rest : List Nat) :
    drainServerBuffer (encodeFrame b ++ rest)
      = (b :: (drainServerBuffer rest).1, (drainServerBuffer rest).2) := by
  have hassoc : encodeFrame b ++ rest
      = (contentLengthHeaderBytes ++ natToDecimal b.length) ++ (crlfcrlf ++ (b ++ rest)) := by
    simp [encodeFrame, List.append_assoc]
  have hH13 : ∀ x ∈ contentLengthHeaderBytes ++ natToDecimal b.length, x ≠ 13 :=
    fun x hx => (encodeHeader_bytes b.length x hx).2
  have hsep : findSep ((contentLengthHeaderBytes ++ natToDecimal b.length)
        ++ (crlfcrlf ++ (b ++ rest)))
      = some (contentLengthHeaderBytes ++ natToDecimal b.length).length :=
    findSep_no13 (contentLengthHeaderBytes ++ natToDecimal b.length) (b ++ rest) hH13
  have htake : ((contentLengthHeaderBytes ++ natToDecimal b.length)
        ++ (crlfcrlf ++ (b ++ rest))).take
          (contentLengthHeaderBytes ++ natToDecimal b.length).length
      = contentLengthHeaderBytes ++ natToDecimal b.length := List.take_left _ _
  have hmod : (contentLengthHeaderBytes ++ natToDecimal b.length).map (· % 128)
      = contentLengthHeaderBytes ++ natToDecimal b.length :=
    map_mod128_eq_self _ fun x hx => (encodeHeader_bytes b.length x hx).1
  have hcl : findContentLength (contentLengthHeaderBytes ++ natToDecimal b.length)
      = some b.length := by
    rw [findContentLength_header (natToDecimal b.length) (natToDecimal_digits b.length)
      (natToDecimal_ne_nil b.length), parseDecDigits_natToDecimal]
  have hlen : ((contentLengthHeaderBytes ++ natToDecimal b.length)
        ++ (crlfcrlf ++ (b ++ rest))).length
      = (contentLengthHeaderBytes ++ natToDecimal b.length).length + 4
        + (b.length + rest.length) := by
    simp [crlfcrlf]
    omega
  have hd4 : ((contentLengthHeaderBytes ++ natToDecimal b.length)
        ++ (crlfcrlf ++ (b ++ rest))).drop
          ((contentLengthHeaderBytes ++ natToDecimal b.length).length + 4)
      = b ++ rest := by
    rw [show (contentLengthHeaderBytes ++ natToDecimal b.length) ++ (crlfcrlf ++ (b ++ rest))
        = ((contentLengthHeaderBytes ++ natToDecimal b.length) ++ crlfcrlf) ++ (b ++ rest) from by
      simp [List.append_assoc]]
    rw [show (contentLengthHeaderBytes ++ natToDecimal b.length).length + 4
        = ((contentLengthHeaderBytes ++ natToDecimal b.length) ++ crlfcrlf).length from by
      simp [crlfcrlf]
      omega]
    exact List.drop_left _ _
  have hdlen : ((contentLengthHeaderBytes ++ natToDecimal b.length)
        ++ (crlfcrlf ++ (b ++ rest))).drop
          ((contentLengthHeaderBytes ++ natToDecimal b.length).length + 4 + b.length)
      = rest := by
    rw [show (contentLengthHeaderBytes ++ natToDecimal b.length) ++ (crlfcrlf ++ (b ++ rest))
        = (((contentLengthHeaderBytes ++ natToDecimal b.length) ++ crlfcrlf) ++ b) ++ rest from by
      simp [List.append_assoc]]
    rw [show (contentLengthHeaderBytes ++ natToDecimal b.length).length + 4 + b.length
        = (((contentLengthHeaderBytes ++ natToDecimal b.length) ++ crlfcrlf) ++ b).length from by
      simp [crlfcrlf]
      omega]
    exact List.drop_left _ _
  rw [hassoc]
  rw [drainServerBuffer_eq, hsep]
  dsimp only
  rw [htake, hmod, hcl]
  dsimp only
  rw [if_neg (by rw [hlen]; omega)]
  rw [hd4, hdlen]
  rw [List.take_left _ _]

theorem drain_frames (bodies : List (List Nat)) :
    drainServerBuffer ((bodies.map encodeFrame).flatten) = (bodies, []) := by
  induction bodies with
  | nil =>
    simp only [List.map_nil, List.flatten_nil]
    exact drainServerBuffer_nil
  | cons b bs ih =>
    simp only [List.map_cons, List.flatten_cons]
    rw [drain_encodeFrame, ih]

theorem feedChunks_foldl (cs : List (List Nat)) :
    ∀ (acc : List (List Nat)) (buf : List Nat),
      drainServerBuffer buf = ([], buf) →
      cs.foldl (fun acc c =>
          let r := drainServerBuffer (acc.2 ++ c)
          (acc.1 ++ r.1, r.2)) (acc, buf)
        = (acc ++ (drainServerBuffer (buf ++ cs.flatten)).1,
           (drainServerBuffer (buf ++ cs.flatten)).2) := by
  induction cs with
  | nil =>
    intro acc buf hq
    simp only [List.foldl_nil, List.flatten_nil, List.append_nil]
    rw [hq]
    simp
  | cons c cs ih =>
    intro acc buf hq
    simp only [List.foldl_cons]
    rw [ih (acc ++ (drainServerBuffer (buf ++ c)).1) (drainServerBuffer (buf ++ c)).2
      (drain_snd_quiescent (buf ++ c))]
    have hflat : buf ++ (c :: cs).flatten = (buf ++ c) ++ cs.flatten := by
      simp [List.flatten_cons, List.append_assoc]
    rw [hflat, drain_append (buf ++ c) cs.flatten]
    simp [List.append_assoc]

/-- C2: feeding the bytes produced by the frame encoder into the frame
decoder reproduces every message body, in order, however the encoded
byte stream is split into chunks — including byte-at-a-time delivery
(all-singleton chunks) and several complete frames arriving in a single
refill (one chunk holding the whole stream) — and leaves an empty
buffer.  Messages are represented by their serialized bodies; JSON
(de)serialization at the boundary is the JS builtin. -/
theorem frame_roundtrip_chunked :
    ∀ (bodies chunks : List (List Nat)),
      chunks.flatten = (bodies.map encodeFrame).flatten →
      feedChunks chunks = (bodies, []) := by
  intro bodies chunks hjoin
  unfold feedChunks
  rw [feedChunks_foldl chunks [] [] drainServerBuffer_nil]
  simp only [List.nil_append]
  rw [hjoin, drain_frames]

/-- Witness for `frame_roundtrip_chunked`: the two-byte body `"hi"`
delivered one byte at a time. -/
theorem frame_roundtrip_chunked_witness :
    ((encodeFrame [104, 105]).map fun b => [b]).flatten
        = ([[104, 105]].map encodeFrame).flatten
    ∧ feedChunks ((encodeFrame [104, 105]).map fun b => [b]) = ([[104, 105]], []) :=
  ⟨by decide,
   frame_roundtrip_chunked [[104, 105]] ((encodeFrame [104, 105]).map fun b => [b]) (by decide)⟩
